import Mathlib

/-!
Verification of `src/main.py` of best-league-teams-by-alphabet-coverage.

The program is a branch-and-bound search: given a list of candidate names and
a team size, it finds all size-`team_size` subsets of the candidate list that
maximize the number of distinct letters covered by the members' names.

This file gives a shallow embedding of the program.  Pure Python functions
become Lean functions; the mutation of `self._best_unique_char_count` and
`self._best_teams` inside `BestTeamsFinder._recurse` becomes an explicit
`SearchState` threaded through the recursion; Python's arbitrary-precision
nonnegative integers (all masks and counts in the program are nonnegative)
become `Nat`; the `KeyError`-capable dict lookup `CHAR_TO_BIT[c]` becomes an
`Option`-returning lookup.
-/

/-- Mirrors the `Champion` dataclass of `main.py`: a name together with the
bitmask of distinct characters of the name. -/
structure Champion where
  name : String
  char_mask : Nat
deriving DecidableEq, Repr

/-- Models Python's `int.bit_count()` (population count) for the nonnegative
integers used by the program. -/
def bitCount : Nat → Nat
  | 0 => 0
  | n + 1 => (n + 1) % 2 + bitCount ((n + 1) / 2)
decreasing_by exact Nat.div_lt_self (by omega) (by omega)

/-- The OR-accumulation of `char_mask` over a team, starting from 0, exactly as
`current_mask` is accumulated along a branch of `_recurse`. -/
def orMask (team : List Champion) : Nat :=
  team.foldl (fun m c => m ||| c.char_mask) 0

/-- The mutable solver state of `BestTeamsFinder`: the fields
`_best_unique_char_count` and `_best_teams`, made explicit. -/
structure SearchState where
  best_unique_char_count : Nat
  best_teams : List (List Champion)
deriving DecidableEq, Repr

/-- The completion-check update of `_recurse` (main.py lines 96-103): score the
completed team; on a strict improvement reset `best_teams` to just this team,
on a tie append it, otherwise leave the state unchanged. -/
def update (s : SearchState) (current_mask : Nat) (current_team : List Champion) :
    SearchState :=
  let unique_char_count := bitCount current_mask
  if s.best_unique_char_count < unique_char_count then
    { best_unique_char_count := unique_char_count, best_teams := [current_team] }
  else if unique_char_count = s.best_unique_char_count then
    { s with best_teams := s.best_teams ++ [current_team] }
  else s

/-- Mirrors `_compute_suffix_char_masks`: traverse the reversed champion list
accumulating the OR of the masks, appending each accumulated value, and reverse
the output at the end. -/
def computeSuffixCharMasks (champs : List Champion) : List Nat :=
  let p := champs.reverse.foldl
    (fun (acc : Nat × List Nat) champ =>
      (acc.1 ||| champ.char_mask, acc.2 ++ [acc.1 ||| champ.char_mask]))
    (0, [])
  p.2.reverse

mutual
/-- Mirrors `BestTeamsFinder._recurse` (main.py lines 84-121).  The parameters
`champs`, `suffixMasks` and `team_size` are the read-only fields of the solver;
`idx`, `current_team`, `current_mask` are the Python arguments, and `s` is the
mutable best-so-far state, threaded explicitly.  The second component of the
result is ghost instrumentation only: the list of teams that reach the
completion check (main.py line 96 with `len(current_team) == team_size`), in
visit order.  It has no influence on the returned `SearchState`. -/
def recurse (champs : List Champion) (suffixMasks : List Nat) (team_size : Nat)
    (idx : Nat) (current_team : List Champion) (current_mask : Nat)
    (s : SearchState) : SearchState × List (List Champion) :=
  if current_team.length = team_size then
    (update s current_mask current_team, [current_team])
  else if champs.length ≤ idx ∨
      current_team.length + (champs.length - idx) < team_size then
    (s, [])
  else if bitCount (current_mask ||| suffixMasks.getD idx 0) <
      s.best_unique_char_count then
    (s, [])
  else
    branch champs suffixMasks team_size idx current_team current_mask s
termination_by 2 * (champs.length - idx) + 1
decreasing_by omega

/-- The loop `for next_idx in range(idx, len(self._champs))` at the end of
`_recurse` (main.py lines 118-121), with the state threaded through the
iterations in order. -/
def branch (champs : List Champion) (suffixMasks : List Nat) (team_size : Nat)
    (next_idx : Nat) (current_team : List Champion) (current_mask : Nat)
    (s : SearchState) : SearchState × List (List Champion) :=
  if h : next_idx < champs.length then
    let new_champ := champs[next_idx]
    let r := recurse champs suffixMasks team_size (next_idx + 1)
      (current_team ++ [new_champ]) (current_mask ||| new_champ.char_mask) s
    let r2 := branch champs suffixMasks team_size (next_idx + 1)
      current_team current_mask r.1
    (r2.1, r.2 ++ r2.2)
  else
    (s, [])
termination_by 2 * (champs.length - next_idx)
decreasing_by
  · omega
  · omega
end

/-- Mirrors `BestTeamsFinder.solve`: start the search with all champions
available, an empty team and mask 0, from the freshly initialized state
`(0, [])`.  The first component is the final solver state (its `best_teams`
field is the Python return value); the second is the ghost list of teams that
reached the completion check. -/
def solveSearch (champs : List Champion) (team_size : Nat) :
    SearchState × List (List Champion) :=
  recurse champs (computeSuffixCharMasks champs) team_size 0 [] 0 ⟨0, []⟩

/-- All length-`k` combinations of a list: the sublists of length `k`, in the
order in which the unpruned recursion completes them (teams containing the
current head first). -/
def combos {α : Type} : Nat → List α → List (List α)
  | 0, _ => [[]]
  | _ + 1, [] => []
  | k + 1, x :: xs => (combos k xs).map (x :: ·) ++ combos (k + 1) xs

/-- Distinct-character coverage of a team: the popcount of the OR of the
members' masks.  This is the score computed at the completion check. -/
def coverage (t : List Champion) : Nat := bitCount (orMask t)

/-- The completion-check update expressed on a team alone (its mask recomputed
from scratch); agrees with `update` whenever the running mask is the OR of the
team, which the search maintains. -/
def updateTeam (s : SearchState) (t : List Champion) : SearchState :=
  update s (orMask t) t

/-- Maximum coverage over a list of teams (0 for the empty list), folded in
order exactly as a run of completion checks would. -/
def maxCoverage (l : List (List Champion)) : Nat :=
  l.foldl (fun a t => max a (coverage t)) 0

/-! ### The text pipeline of `__init__` -/

/-- Models Python's per-character `str.lower`.  `Char.toLower` lowercases
exactly the ASCII range A-Z; Python additionally lowercases some non-ASCII
codepoints, on which this model is the identity.  The model is faithful on all
ASCII characters and on U+00E9 (é), the only non-ASCII character this file
evaluates it on. -/
def pyLower (c : Char) : Char := c.toLower

/-- Models Python's per-character `str.isalpha`: true on Unicode alphabetic
characters.  The full Unicode database is not reproduced: the model is
faithful on all ASCII characters (where alphabetic means A-Z or a-z) and on
the non-ASCII letter U+00E9 (é), which Python classifies as alphabetic and
which is the only non-ASCII character this file evaluates it on. -/
def pyIsAlpha (c : Char) : Bool :=
  (decide ('a' ≤ c) && decide (c ≤ 'z')) ||
    (decide ('A' ≤ c) && decide (c ≤ 'Z')) || (c == 'é')

/-- Mirrors one element of `_normalize_names`:
`"".join(filter(str.isalpha, name.lower()))`. -/
def normalizeName (name : String) : String :=
  String.mk ((name.toList.map pyLower).filter pyIsAlpha)

/-- Mirrors `BestTeamsFinder._normalize_names`. -/
def normalizeNames (champ_names : List String) : List String :=
  champ_names.map normalizeName

/-- Models the dict `CHAR_TO_BIT = {c: 1 << i for i, c in
enumerate(string.ascii_lowercase)}` as a lookup function: defined exactly on
the 26 lowercase ASCII letters, where the letter at alphabet position `i`
(that is, with codepoint `97 + i`) maps to `1 <<< i`.  A lookup of any other
character raises `KeyError` in Python, modelled by `none`. -/
def CHAR_TO_BIT (c : Char) : Option Nat :=
  if 'a' ≤ c ∧ c ≤ 'z' then some (1 <<< (c.toNat - 'a'.toNat)) else none

/-- Mirrors one element of `_create_champion_objects`:
`Champion(name=name, char_mask=sum(CHAR_TO_BIT[c] for c in set(name)))`.
The sum ranges over the distinct characters of the name (Python's `set`;
the sum is order-independent, taken here over first occurrences), and a
`KeyError` on any character makes the construction fail. -/
def createChampion (name : String) : Option Champion :=
  (name.toList.dedup.mapM CHAR_TO_BIT).map (fun bits => ⟨name, bits.sum⟩)

/-- Mirrors `BestTeamsFinder._create_champion_objects`. -/
def createChampionObjects (names : List String) : Option (List Champion) :=
  names.mapM createChampion

/-- Mirrors `_compute_char_frequencies`: for each character, the number of
names that contain it (each name contributes at most once per character).
The Python `Counter` stores only characters of nonzero count; the model is the
total counting function, which is 0 exactly off that support. -/
def computeCharFrequencies (names : List String) (c : Char) : Nat :=
  names.countP (fun name => name.toList.contains c)

/-- Mirrors `_compute_char_rarity_scores`: `1 / freq**100`.  Python computes
this in floating point; it is modelled in exact rational arithmetic (the
scores only influence the candidate ordering, and no theorem below depends on
the particular order).  For a character of frequency 0 the Python dict has no
entry and the program never looks one up; the model returns `1 / 0 = 0`
there. -/
def computeCharRarityScores (freq : Char → Nat) (c : Char) : ℚ :=
  1 / ((freq c : ℚ) ^ 100)

/-- The 26 lowercase ASCII letters, `string.ascii_lowercase`. -/
def asciiLowercase : List Char := "abcdefghijklmnopqrstuvwxyz".toList

/-- Mirrors `_score_mask`: sum the rarity scores of the characters whose bit
is set in the mask, iterating over the `CHAR_TO_BIT` items (the 26 lowercase
letters; letter `c` has bit `1 <<< (c.toNat - 97)`). -/
def scoreMask (mask : Nat) (scores : Char → ℚ) : ℚ :=
  ((asciiLowercase.filter
    (fun c => mask &&& (1 <<< (c.toNat - 'a'.toNat)) != 0)).map scores).sum

/-- Mirrors `BestTeamsFinder.__init__` up to the ranked champion list:
normalize the names, compute character frequencies and rarity scores, build
the `Champion` objects (failing if some normalized name contains a character
outside a-z), and sort by descending mask score.  Python's `list.sort` with
`reverse=True` is a stable sort that puts larger keys first while keeping ties
in input order, i.e. a stable merge sort with the relation
`score of a ≥ score of b`. -/
def bestTeamsFinderInit (champ_names : List String) : Option (List Champion) :=
  let normalized_names := normalizeNames champ_names
  let char_freq := computeCharFrequencies normalized_names
  let char_rarity_scores := computeCharRarityScores char_freq
  (createChampionObjects normalized_names).map (fun champs =>
    champs.mergeSort (fun a b =>
      decide (scoreMask b.char_mask char_rarity_scores ≤
        scoreMask a.char_mask char_rarity_scores)))

/-- The whole program on one input: `__init__` followed by `solve`, returning
the final solver state together with the ghost visited-team list. -/
def runFinder (champ_names : List String) (team_size : Nat) :
    Option (SearchState × List (List Champion)) :=
  (bestTeamsFinderInit champ_names).map (fun champs => solveSearch champs team_size)

/-! ### Fuel-indexed search, for the termination claim -/

mutual
/-- Fuel-indexed variant of `recurse`, structurally recursive on the fuel:
every recursive call consumes one unit of fuel, and exhausted fuel yields
`none`.  Termination of the Python recursion is expressed by the theorem that
fuel linear in the number of remaining candidates always suffices. -/
def recurseFuel : Nat → List Champion → List Nat → Nat → Nat → List Champion →
    Nat → SearchState → Option (SearchState × List (List Champion))
  | 0, _, _, _, _, _, _, _ => none
  | fuel + 1, champs, suffixMasks, team_size, idx, current_team, current_mask, s =>
    if current_team.length = team_size then
      some (update s current_mask current_team, [current_team])
    else if champs.length ≤ idx ∨
        current_team.length + (champs.length - idx) < team_size then
      some (s, [])
    else if bitCount (current_mask ||| suffixMasks.getD idx 0) <
        s.best_unique_char_count then
      some (s, [])
    else
      branchFuel fuel champs suffixMasks team_size idx current_team current_mask s

/-- Fuel-indexed variant of `branch`. -/
def branchFuel : Nat → List Champion → List Nat → Nat → Nat → List Champion →
    Nat → SearchState → Option (SearchState × List (List Champion))
  | 0, _, _, _, _, _, _, _ => none
  | fuel + 1, champs, suffixMasks, team_size, next_idx, current_team, current_mask, s =>
    if h : next_idx < champs.length then
      match recurseFuel fuel champs suffixMasks team_size (next_idx + 1)
        (current_team ++ [champs[next_idx]])
        (current_mask ||| champs[next_idx].char_mask) s with
      | none => none
      | some r =>
        match branchFuel fuel champs suffixMasks team_size (next_idx + 1)
          current_team current_mask r.1 with
        | none => none
        | some r2 => some (r2.1, r.2 ++ r2.2)
    else
      some (s, [])
end

/-! ### Concrete champions for examples -/

/-- The champion created from the name "cd" (bits c and d). -/
def champCD : Champion := ⟨"cd", 12⟩

/-- The champion created from the name "ab" (bits a and b). -/
def champAB : Champion := ⟨"ab", 3⟩

/-- The champion created from the name "ac" (bits a and c). -/
def champAC : Champion := ⟨"ac", 5⟩

/-- The champion created from the name "a" (bit a). -/
def champA : Champion := ⟨"a", 1⟩

/-! ## Bit-level helper lemmas -/

/-- Unfolding equation for `bitCount` that is convenient for `simp`. -/
theorem bitCount_eq (n : Nat) :
    bitCount n = if n = 0 then 0 else n % 2 + bitCount (n / 2) := by
  cases n with
  | zero => simp [bitCount]
  | succ m => rw [bitCount]; simp

theorem lor_ne_zero_of_left (a b : Nat) (ha : a ≠ 0) : a ||| b ≠ 0 := by
  obtain ⟨i, hi⟩ := Nat.ne_zero_implies_bit_true ha
  intro h0
  have := Nat.testBit_or a b i
  rw [h0] at this
  simp [hi] at this

theorem mod_two_le_lor_mod_two (a b : Nat) : a % 2 ≤ (a ||| b) % 2 := by
  have h := Nat.testBit_or a b 0
  simp only [Nat.testBit_zero] at h
  rcases Nat.mod_two_eq_zero_or_one a with ha | ha <;>
    rcases Nat.mod_two_eq_zero_or_one (a ||| b) with hb | hb <;>
      simp [ha, hb] at h ⊢

theorem bitCount_le_lor (a b : Nat) : bitCount a ≤ bitCount (a ||| b) := by
  induction a using Nat.strong_induction_on generalizing b with
  | _ a ih =>
    rcases Nat.eq_zero_or_pos a with h0 | hpos
    · subst h0; simp [bitCount]
    · have hne : a ≠ 0 := by omega
      rw [bitCount_eq a, bitCount_eq (a ||| b)]
      rw [if_neg hne, if_neg (lor_ne_zero_of_left a b hne)]
      rw [Nat.or_div_two]
      have h1 := mod_two_le_lor_mod_two a b
      have h2 := ih (a / 2) (Nat.div_lt_self hpos (by omega)) (b / 2)
      omega

/-- A submask has at most as many set bits. -/
theorem bitCount_le_of_lor_eq {a b : Nat} (h : a ||| b = b) :
    bitCount a ≤ bitCount b := by
  have := bitCount_le_lor a b
  rwa [h] at this

theorem add_eq_lor_of_and_eq_zero (a b : Nat) (h : a &&& b = 0) :
    a + b = a ||| b := by
  induction a using Nat.strong_induction_on generalizing b with
  | _ a ih =>
    rcases Nat.eq_zero_or_pos a with h0 | hpos
    · subst h0; simp
    · have hd : a / 2 &&& b / 2 = 0 := by
        rw [← Nat.and_div_two, h]
      have ihd := ih (a / 2) (Nat.div_lt_self hpos (by omega)) (b / 2) hd
      have hb0 : ¬(a % 2 = 1 ∧ b % 2 = 1) := by
        rintro ⟨ha1, hb1⟩
        have := Nat.testBit_and a b 0
        rw [h] at this
        simp [Nat.testBit_zero, ha1, hb1] at this
      have hor := Nat.testBit_or a b 0
      simp only [Nat.testBit_zero] at hor
      have hor' : (a ||| b) % 2 = 1 ↔ a % 2 = 1 ∨ b % 2 = 1 := by
        constructor
        · intro hx
          have hb : (decide (a % 2 = 1) || decide (b % 2 = 1)) = true := by
            rw [← hor]; simp [hx]
          simpa using hb
        · intro hx
          have hb : (decide (a % 2 = 1) || decide (b % 2 = 1)) = true := by
            simpa using hx
          have := hor.trans hb
          simpa using this
      have hdm_a := Nat.div_add_mod a 2
      have hdm_b := Nat.div_add_mod b 2
      have hdm_ab := Nat.div_add_mod (a ||| b) 2
      rw [Nat.or_div_two] at hdm_ab
      have h2a := Nat.mod_two_eq_zero_or_one a
      have h2b := Nat.mod_two_eq_zero_or_one b
      have h2ab := Nat.mod_two_eq_zero_or_one (a ||| b)
      have key : (a ||| b) % 2 = a % 2 + b % 2 := by
        rcases h2a with h1 | h1 <;> rcases h2b with h2 | h2
        · rcases h2ab with h3 | h3
          · omega
          · have := hor'.mp h3; omega
        · have := hor'.mpr (Or.inr h2); omega
        · have := hor'.mpr (Or.inl h1); omega
        · exact absurd (And.intro h1 h2) hb0
      omega

/-- The bit at position `p` of a sum of distinct powers of two is set exactly
when `p` is one of the exponents. -/
theorem testBit_sum_two_pow (ps : List Nat) (hnd : ps.Nodup) (p : Nat) :
    ((ps.map (fun i => 2 ^ i)).sum).testBit p = true ↔ p ∈ ps := by
  induction ps generalizing p with
  | nil => simp
  | cons a ps ih =>
    have hnd' : ps.Nodup := hnd.of_cons
    have ha : a ∉ ps := (List.nodup_cons.mp hnd).1
    have hbit_a : ((ps.map (fun i => 2 ^ i)).sum).testBit a = false := by
      cases hb : ((ps.map (fun i => 2 ^ i)).sum).testBit a with
      | false => rfl
      | true => exact absurd ((ih hnd' a).mp hb) ha
    have hand : 2 ^ a &&& (ps.map (fun i => 2 ^ i)).sum = 0 := by
      apply Nat.eq_of_testBit_eq
      intro i
      rw [Nat.testBit_and]
      rcases eq_or_ne a i with rfl | hne
      · simp [hbit_a]
      · simp [Nat.testBit_two_pow_of_ne hne]
    rw [List.map_cons, List.sum_cons, add_eq_lor_of_and_eq_zero _ _ hand,
      Nat.testBit_or, List.mem_cons]
    constructor
    · intro hx
      rcases Bool.or_eq_true_iff.mp hx with hx | hx
      · left
        by_contra hne
        rw [Nat.testBit_two_pow_of_ne (fun he => hne he.symm)] at hx
        exact Bool.false_ne_true hx
      · right; exact (ih hnd' p).mp hx
    · rintro (rfl | hx)
      · simp [Nat.testBit_two_pow_self]
      · simp [(ih hnd' p).mpr hx]

/-! ## orMask lemmas -/

theorem orMask_nil : orMask [] = 0 := rfl

theorem foldl_lor_eq (l : List Champion) (a : Nat) :
    l.foldl (fun m c => m ||| c.char_mask) a = a ||| orMask l := by
  induction l generalizing a with
  | nil => simp [orMask]
  | cons c l ih =>
    simp only [orMask, List.foldl_cons] at *
    rw [ih (a ||| c.char_mask), ih (0 ||| c.char_mask)]
    simp [Nat.or_assoc]

theorem orMask_cons (c : Champion) (l : List Champion) :
    orMask (c :: l) = c.char_mask ||| orMask l := by
  have := foldl_lor_eq l c.char_mask
  simp only [orMask, List.foldl_cons, Nat.zero_or]
  simpa [orMask] using this

theorem orMask_append (l₁ l₂ : List Champion) :
    orMask (l₁ ++ l₂) = orMask l₁ ||| orMask l₂ := by
  induction l₁ with
  | nil => simp [orMask_nil]
  | cons c l ih => simp [orMask_cons, ih, Nat.or_assoc]

theorem orMask_reverse (l : List Champion) : orMask l.reverse = orMask l := by
  induction l with
  | nil => rfl
  | cons c l ih =>
    simp [List.reverse_cons, orMask_append, ih, orMask_cons, orMask_nil,
      Nat.or_comm]

theorem testBit_orMask (l : List Champion) (i : Nat) :
    (orMask l).testBit i = true ↔ ∃ c ∈ l, c.char_mask.testBit i = true := by
  induction l with
  | nil => simp [orMask_nil]
  | cons c l ih =>
    rw [orMask_cons, Nat.testBit_or]
    simp [Bool.or_eq_true_iff, ih]

theorem orMask_sublist {t l : List Champion} (h : List.Sublist t l) :
    orMask t ||| orMask l = orMask l := by
  apply Nat.eq_of_testBit_eq
  intro i
  rw [Nat.testBit_or]
  cases hb : (orMask t).testBit i with
  | false => simp
  | true =>
    obtain ⟨c, hc, hcb⟩ := (testBit_orMask t i).mp hb
    have : (orMask l).testBit i = true := (testBit_orMask l i).mpr ⟨c, h.subset hc, hcb⟩
    simp [this]

theorem lor_absorb_of_lor_eq (x y z : Nat) (h : y ||| z = z) :
    (x ||| y) ||| (x ||| z) = x ||| z := by
  apply Nat.eq_of_testBit_eq
  intro i
  have ht := congrArg (fun n => Nat.testBit n i) h
  simp only [Nat.testBit_or] at ht ⊢
  cases hx : x.testBit i <;> cases hy : y.testBit i <;> cases hz : z.testBit i <;>
    simp_all

/-! ## Suffix mask table lemmas -/

theorem suffixFold_fst (l : List Champion) (a : Nat) (out : List Nat) :
    (l.foldl (fun (acc : Nat × List Nat) champ =>
      (acc.1 ||| champ.char_mask, acc.2 ++ [acc.1 ||| champ.char_mask]))
      (a, out)).1 = l.foldl (fun m c => m ||| c.char_mask) a := by
  induction l generalizing a out with
  | nil => rfl
  | cons c l ih => simp only [List.foldl_cons]; rw [ih]

theorem computeSuffixCharMasks_nil : computeSuffixCharMasks [] = [] := rfl

theorem computeSuffixCharMasks_cons (c : Champion) (cs : List Champion) :
    computeSuffixCharMasks (c :: cs) =
      (orMask cs ||| c.char_mask) :: computeSuffixCharMasks cs := by
  show ((c :: cs).reverse.foldl
      (fun (acc : Nat × List Nat) champ =>
        (acc.1 ||| champ.char_mask, acc.2 ++ [acc.1 ||| champ.char_mask]))
      (0, [])).2.reverse = _
  rw [List.reverse_cons, List.foldl_append]
  simp only [List.foldl_cons, List.foldl_nil]
  rw [suffixFold_fst]
  have h1 : cs.reverse.foldl (fun m c => m ||| c.char_mask) 0 = orMask cs :=
    orMask_reverse cs
  rw [h1, List.reverse_append]
  rfl

theorem length_computeSuffixCharMasks (champs : List Champion) :
    (computeSuffixCharMasks champs).length = champs.length := by
  induction champs with
  | nil => rfl
  | cons c cs ih => rw [computeSuffixCharMasks_cons]; simp [ih]

theorem computeSuffixCharMasks_getD (champs : List Champion) (i : Nat)
    (h : i < champs.length) :
    (computeSuffixCharMasks champs).getD i 0 = orMask (champs.drop i) := by
  induction champs generalizing i with
  | nil => simp at h
  | cons c cs ih =>
    rw [computeSuffixCharMasks_cons]
    cases i with
    | zero => simp [orMask_cons, Nat.or_comm]
    | succ i =>
      simp only [List.getD_cons_succ, List.drop_succ_cons]
      exact ih i (by simpa using h)

/-! ## Combination enumeration lemmas -/

theorem mem_combos {α : Type} {t l : List α} {k : Nat} :
    t ∈ combos k l ↔ List.Sublist t l ∧ t.length = k := by
  induction l generalizing k t with
  | nil =>
    cases k with
    | zero => simp [combos]
    | succ k =>
      simp only [combos, List.not_mem_nil, false_iff, not_and]
      intro hs
      rw [List.sublist_nil.mp hs]
      simp
  | cons x xs ih =>
    cases k with
    | zero =>
      simp only [combos, List.mem_singleton]
      constructor
      · rintro rfl; exact ⟨List.nil_sublist _, rfl⟩
      · rintro ⟨_, hl⟩; exact List.eq_nil_of_length_eq_zero hl
    | succ k =>
      simp only [combos, List.mem_append, List.mem_map]
      constructor
      · rintro (⟨e, he, rfl⟩ | ht)
        · obtain ⟨hs, hl⟩ := ih.mp he
          exact ⟨List.Sublist.cons₂ x hs, by simp [hl]⟩
        · obtain ⟨hs, hl⟩ := ih.mp ht
          exact ⟨hs.cons x, hl⟩
      · rintro ⟨hs, hl⟩
        rcases List.sublist_cons_iff.mp hs with hs' | ⟨r, rfl, hr⟩
        · right; exact ih.mpr ⟨hs', hl⟩
        · left; exact ⟨r, ih.mpr ⟨hr, by simpa using hl⟩, rfl⟩

theorem combos_eq_nil {α : Type} {k : Nat} {l : List α} (h : l.length < k) :
    combos k l = [] := by
  rw [List.eq_nil_iff_forall_not_mem]
  intro t ht
  obtain ⟨hs, hl⟩ := mem_combos.mp ht
  have := hs.length_le
  omega

theorem take_mem_combos {α : Type} {k : Nat} {l : List α} (h : k ≤ l.length) :
    l.take k ∈ combos k l :=
  mem_combos.mpr ⟨List.take_sublist k l, by rw [List.length_take]; omega⟩

theorem combos_nodup {α : Type} {l : List α} (hnd : l.Nodup) (k : Nat) :
    (combos k l).Nodup := by
  induction l generalizing k with
  | nil => cases k <;> simp [combos]
  | cons x xs ih =>
    have hx : x ∉ xs := (List.nodup_cons.mp hnd).1
    have hnd' : xs.Nodup := (List.nodup_cons.mp hnd).2
    cases k with
    | zero => simp [combos]
    | succ k =>
      apply List.Nodup.append
      · exact (ih hnd' k).map (fun a b hab => by simpa using hab)
      · exact ih hnd' (k + 1)
      · intro t ht1 ht2
        obtain ⟨e, _, rfl⟩ := List.mem_map.mp ht1
        obtain ⟨hs, _⟩ := mem_combos.mp ht2
        exact hx (hs.subset (List.mem_cons_self x e))

/-! ## The running-best fold -/

theorem updateTeam_eq_self {s : SearchState} {t : List Champion}
    (h : coverage t < s.best_unique_char_count) : updateTeam s t = s := by
  unfold updateTeam update coverage at *
  dsimp only
  rw [if_neg (by omega), if_neg (by omega)]

theorem foldl_updateTeam_eq_self {s : SearchState} {l : List (List Champion)}
    (h : ∀ t ∈ l, coverage t < s.best_unique_char_count) :
    l.foldl updateTeam s = s := by
  induction l with
  | nil => rfl
  | cons t l ih =>
    rw [List.foldl_cons, updateTeam_eq_self (h t (List.mem_cons_self t l))]
    exact ih (fun t' ht' => h t' (List.mem_cons_of_mem t ht'))

theorem le_foldl_max (l : List (List Champion)) (a : Nat) :
    a ≤ l.foldl (fun b t => max b (coverage t)) a := by
  induction l generalizing a with
  | nil => simp
  | cons t l ih => exact le_trans (le_max_left a (coverage t)) (ih _)

theorem coverage_le_foldl_max {l : List (List Champion)} {t : List Champion}
    (ht : t ∈ l) (a : Nat) :
    coverage t ≤ l.foldl (fun b t => max b (coverage t)) a := by
  induction l generalizing a with
  | nil => simp at ht
  | cons t' l ih =>
    rcases List.mem_cons.mp ht with rfl | ht'
    · exact le_trans (le_max_right a (coverage t)) (le_foldl_max l _)
    · exact ih ht' _

theorem coverage_le_maxCoverage {l : List (List Champion)} {t : List Champion}
    (ht : t ∈ l) : coverage t ≤ maxCoverage l :=
  coverage_le_foldl_max ht 0

theorem maxCoverage_append (l : List (List Champion)) (t : List Champion) :
    maxCoverage (l ++ [t]) = max (maxCoverage l) (coverage t) := by
  unfold maxCoverage
  rw [List.foldl_append]
  rfl

theorem maxCoverage_attained {l : List (List Champion)} (h : l ≠ []) :
    ∃ t ∈ l, coverage t = maxCoverage l := by
  induction l using List.reverseRecOn with
  | nil => exact absurd rfl h
  | append_singleton l t ih =>
    rw [maxCoverage_append]
    rcases Nat.le_total (maxCoverage l) (coverage t) with hle | hle
    · exact ⟨t, by simp, by omega⟩
    · rcases List.eq_nil_or_concat l with rfl | _
      · refine ⟨t, by simp, ?_⟩
        have : maxCoverage ([] : List (List Champion)) = 0 := rfl
        omega
      · obtain ⟨t', ht', hc⟩ := ih (by rintro rfl; simp_all)
        exact ⟨t', by simp [ht'], by omega⟩

theorem foldl_updateTeam_spec (l : List (List Champion)) :
    l.foldl updateTeam ⟨0, []⟩ =
      ⟨maxCoverage l, l.filter (fun t => coverage t = maxCoverage l)⟩ := by
  induction l using List.reverseRecOn with
  | nil => rfl
  | append_singleton l t ih =>
    rw [List.foldl_append, List.foldl_cons, List.foldl_nil, ih,
      maxCoverage_append]
    rcases Nat.lt_trichotomy (maxCoverage l) (coverage t) with hlt | heq | hgt
    · have hmax : max (maxCoverage l) (coverage t) = coverage t := by omega
      rw [hmax]
      have hfl : l.filter (fun t' => coverage t' = coverage t) = [] := by
        rw [List.filter_eq_nil_iff]
        intro t' ht'
        have := coverage_le_maxCoverage ht'
        simp only [decide_eq_true_eq]
        omega
      rw [List.filter_append, hfl]
      show updateTeam _ t = _
      unfold updateTeam update coverage at *
      dsimp only
      rw [if_pos (by omega)]
      simp
    · have hmax : max (maxCoverage l) (coverage t) = maxCoverage l := by omega
      rw [hmax]
      rw [List.filter_append]
      show updateTeam _ t = _
      unfold updateTeam update coverage at *
      dsimp only
      rw [if_neg (by omega), if_pos (by omega)]
      simp only [SearchState.mk.injEq, true_and]
      congr 1
      simp [heq]
    · have hmax : max (maxCoverage l) (coverage t) = maxCoverage l := by omega
      rw [hmax, List.filter_append]
      have hdec : decide (coverage t = maxCoverage l) = false := by
        simp only [decide_eq_false_iff_not]
        omega
      have hft : List.filter (fun t' => decide (coverage t' = maxCoverage l)) [t] = [] := by
        simp [List.filter, hdec]
      rw [hft, List.append_nil]
      exact updateTeam_eq_self hgt

/-! ## The branch-and-bound recursion computes the brute-force fold -/

theorem orMask_concat (l : List Champion) (c : Champion) :
    orMask (l ++ [c]) = orMask l ||| c.char_mask := by
  rw [orMask_append, orMask_cons, orMask_nil, Nat.or_zero]

theorem recurse_branch_spec (champs : List Champion) (sfx : List Nat)
    (team_size : Nat)
    (hsuf : ∀ i, i < champs.length → sfx.getD i 0 = orMask (champs.drop i)) :
    ∀ n : Nat,
      (∀ idx team mask s, 2 * (champs.length - idx) + 1 < n →
        mask = orMask team → team.length ≤ team_size →
        (recurse champs sfx team_size idx team mask s).1 =
          ((combos (team_size - team.length) (champs.drop idx)).map
            (fun e => team ++ e)).foldl updateTeam s ∧
        List.Sublist (recurse champs sfx team_size idx team mask s).2
          ((combos (team_size - team.length) (champs.drop idx)).map
            (fun e => team ++ e))) ∧
      (∀ next team mask s, 2 * (champs.length - next) < n →
        mask = orMask team → team.length < team_size →
        (branch champs sfx team_size next team mask s).1 =
          ((combos (team_size - team.length) (champs.drop next)).map
            (fun e => team ++ e)).foldl updateTeam s ∧
        List.Sublist (branch champs sfx team_size next team mask s).2
          ((combos (team_size - team.length) (champs.drop next)).map
            (fun e => team ++ e))) := by
  intro n
  induction n with
  | zero =>
    exact ⟨fun _ _ _ _ h => absurd h (by omega),
           fun _ _ _ _ h => absurd h (by omega)⟩
  | succ n ih =>
    obtain ⟨ihr, ihb⟩ := ih
    constructor
    · intro idx team mask s hm hmask hlen
      rw [recurse]
      by_cases hc : team.length = team_size
      · rw [if_pos hc]
        have h0 : team_size - team.length = 0 := by omega
        rw [h0]
        simp only [combos, List.map_cons, List.map_nil, List.foldl_cons,
          List.foldl_nil, List.append_nil]
        constructor
        · show update s mask team = updateTeam s team
          rw [hmask]; rfl
        · exact List.Sublist.refl _
      · rw [if_neg hc]
        by_cases hf : champs.length ≤ idx ∨
            team.length + (champs.length - idx) < team_size
        · rw [if_pos hf]
          have hnil : combos (team_size - team.length) (champs.drop idx) = [] := by
            apply combos_eq_nil
            rw [List.length_drop]
            omega
          rw [hnil]
          exact ⟨rfl, List.nil_sublist _⟩
        · rw [if_neg hf]
          push_neg at hf
          obtain ⟨hidx, hfeas⟩ := hf
          by_cases hb : bitCount (mask ||| sfx.getD idx 0) <
              s.best_unique_char_count
          · rw [if_pos hb]
            constructor
            · symm
              apply foldl_updateTeam_eq_self
              intro t ht
              obtain ⟨e, he, rfl⟩ := List.mem_map.mp ht
              obtain ⟨hes, _⟩ := mem_combos.mp he
              have h1 : orMask e ||| orMask (champs.drop idx) =
                  orMask (champs.drop idx) := orMask_sublist hes
              have h2 : orMask (team ++ e) ||| (mask ||| sfx.getD idx 0) =
                  mask ||| sfx.getD idx 0 := by
                rw [hsuf idx hidx, orMask_append, hmask]
                exact lor_absorb_of_lor_eq _ _ _ h1
              have h3 := bitCount_le_of_lor_eq h2
              unfold coverage
              omega
            · exact List.nil_sublist _
          · rw [if_neg hb]
            exact ihb idx team mask s (by omega) hmask (by omega)
    · intro next team mask s hm hmask hlt
      rw [branch]
      by_cases h : next < champs.length
      · rw [dif_pos h]
        have hdrop : champs.drop next = champs[next] :: champs.drop (next + 1) :=
          List.drop_eq_getElem_cons h
        have hm1 : team_size - team.length = (team_size - (team.length + 1)) + 1 := by
          omega
        have hmask' : mask ||| champs[next].char_mask =
            orMask (team ++ [champs[next]]) := by
          rw [orMask_concat, hmask]
        have hrec := ihr (next + 1) (team ++ [champs[next]])
          (mask ||| champs[next].char_mask) s (by omega) hmask' (by simp; omega)
        have hlen1 : (team ++ [champs[next]]).length = team.length + 1 := by simp
        rw [hlen1] at hrec
        have hbr := ihb (next + 1) team mask
          ((recurse champs sfx team_size (next + 1) (team ++ [champs[next]])
            (mask ||| champs[next].char_mask) s).1) (by omega) hmask hlt
        have hsplit :
            (combos (team_size - team.length) (champs.drop next)).map
              (fun e => team ++ e) =
            ((combos (team_size - (team.length + 1)) (champs.drop (next + 1))).map
              (fun e => (team ++ [champs[next]]) ++ e)) ++
            ((combos (team_size - team.length) (champs.drop (next + 1))).map
              (fun e => team ++ e)) := by
          rw [hdrop, hm1]
          show ((combos (team_size - (team.length + 1))
              (champs.drop (next + 1))).map (fun e => champs[next] :: e) ++
            combos (team_size - (team.length + 1) + 1)
              (champs.drop (next + 1))).map (fun e => team ++ e) = _
          rw [List.map_append, List.map_map, ← hm1]
          congr 1
          apply List.map_congr_left
          intro e _
          simp
        constructor
        · show (branch champs sfx team_size (next + 1) team mask
            ((recurse champs sfx team_size (next + 1) (team ++ [champs[next]])
              (mask ||| champs[next].char_mask) s).1)).1 = _
          rw [hsplit, List.foldl_append, ← hrec.1]
          exact hbr.1
        · show List.Sublist ((recurse champs sfx team_size (next + 1)
              (team ++ [champs[next]])
              (mask ||| champs[next].char_mask) s).2 ++
            (branch champs sfx team_size (next + 1) team mask
              ((recurse champs sfx team_size (next + 1) (team ++ [champs[next]])
                (mask ||| champs[next].char_mask) s).1)).2) _
          rw [hsplit]
          exact List.Sublist.append hrec.2 hbr.2
      · rw [dif_neg h]
        have hnil : combos (team_size - team.length) (champs.drop next) = [] := by
          apply combos_eq_nil
          rw [List.length_drop]
          omega
        rw [hnil]
        exact ⟨rfl, List.nil_sublist _⟩

theorem solveSearch_eq (champs : List Champion) (team_size : Nat) :
    (solveSearch champs team_size).1 =
      (combos team_size champs).foldl updateTeam ⟨0, []⟩ ∧
    List.Sublist (solveSearch champs team_size).2 (combos team_size champs) := by
  have h := (recurse_branch_spec champs (computeSuffixCharMasks champs) team_size
    (fun i hi => computeSuffixCharMasks_getD champs i hi)
    (2 * champs.length + 2)).1 0 [] 0 ⟨0, []⟩ (by omega) rfl
    (by simp)
  have hmap : (combos team_size (champs.drop 0)).map (fun e => [] ++ e) =
      combos team_size champs := by
    simp
  rw [show team_size - List.length [] = team_size by simp] at h
  rw [hmap] at h
  exact h

theorem solveSearch_spec (champs : List Champion) (team_size : Nat) :
    (solveSearch champs team_size).1 =
      ⟨maxCoverage (combos team_size champs),
       (combos team_size champs).filter
         (fun t => coverage t = maxCoverage (combos team_size champs))⟩ := by
  rw [(solveSearch_eq champs team_size).1, foldl_updateTeam_spec]

/-! ## Characters and normalization -/

theorem char_le_iff_toNat_le {a b : Char} : a ≤ b ↔ a.toNat ≤ b.toNat := by
  rw [Char.le_def]
  exact ⟨fun h => h, fun h => h⟩

theorem toNat_ofNat_of_lt {n : Nat} (h : n < 55296) : (Char.ofNat n).toNat = n := by
  have hv : n.isValidChar := Or.inl h
  unfold Char.ofNat
  rw [dif_pos hv]
  unfold Char.ofNatAux Char.toNat
  rfl

theorem toNat_toLower_of_upper {c : Char} (h1 : 65 ≤ c.toNat) (h2 : c.toNat ≤ 90) :
    (Char.toLower c).toNat = c.toNat + 32 := by
  unfold Char.toLower
  rw [if_pos ⟨h1, h2⟩]
  exact toNat_ofNat_of_lt (by omega)

theorem toLower_eq_self {c : Char} (h : ¬(65 ≤ c.toNat ∧ c.toNat ≤ 90)) :
    Char.toLower c = c := by
  unfold Char.toLower
  rw [if_neg h]

theorem normalizeName_ascii {name : String}
    (h : ∀ c ∈ name.toList, c.toNat < 128) :
    ∀ c ∈ (normalizeName name).toList, 'a' ≤ c ∧ c ≤ 'z' := by
  intro c hc
  have hc' : c ∈ (name.toList.map pyLower).filter pyIsAlpha := hc
  obtain ⟨hmem, halpha⟩ := List.mem_filter.mp hc'
  obtain ⟨c0, hc0, rfl⟩ := List.mem_map.mp hmem
  have h0 : c0.toNat < 128 := h c0 hc0
  unfold pyLower at *
  by_cases hU : 65 ≤ c0.toNat ∧ c0.toNat ≤ 90
  · have ht := toNat_toLower_of_upper hU.1 hU.2
    have ha : ('a').toNat = 97 := by decide
    have hz : ('z').toNat = 122 := by decide
    constructor
    · rw [char_le_iff_toNat_le]; omega
    · rw [char_le_iff_toNat_le]; omega
  · rw [toLower_eq_self hU] at halpha ⊢
    unfold pyIsAlpha at halpha
    simp only [Bool.or_eq_true, Bool.and_eq_true, decide_eq_true_eq,
      beq_iff_eq] at halpha
    rcases halpha with (⟨h1, h2⟩ | ⟨h1, h2⟩) | rfl
    · exact ⟨h1, h2⟩
    · rw [char_le_iff_toNat_le] at h1 h2
      have hA : ('A').toNat = 65 := by decide
      have hZ : ('Z').toNat = 90 := by decide
      omega
    · have : ('é').toNat = 233 := by decide
      omega

theorem CHAR_TO_BIT_of_lower {c : Char} (h1 : 'a' ≤ c) (h2 : c ≤ 'z') :
    CHAR_TO_BIT c = some (1 <<< (c.toNat - 'a'.toNat)) := by
  unfold CHAR_TO_BIT
  rw [if_pos ⟨h1, h2⟩]

theorem mapM_eq_some_map {α β : Type} (l : List α) (f : α → Option β)
    (g : α → β) (h : ∀ a ∈ l, f a = some (g a)) :
    l.mapM f = some (l.map g) := by
  induction l with
  | nil => rfl
  | cons a l ih =>
    rw [List.mapM_cons, h a (List.mem_cons_self a l),
      ih (fun x hx => h x (List.mem_cons_of_mem a hx))]
    rfl

theorem createChampion_of_lower {name : String}
    (h : ∀ c ∈ name.toList, 'a' ≤ c ∧ c ≤ 'z') :
    createChampion name = some
      ⟨name, (name.toList.dedup.map
        (fun c => 1 <<< (c.toNat - 'a'.toNat))).sum⟩ := by
  unfold createChampion
  rw [mapM_eq_some_map name.toList.dedup CHAR_TO_BIT
    (fun c => 1 <<< (c.toNat - 'a'.toNat))
    (fun c hc => CHAR_TO_BIT_of_lower (h c (List.mem_dedup.mp hc)).1
      (h c (List.mem_dedup.mp hc)).2)]
  rfl

theorem createChampionObjects_isSome {names : List String}
    (h : ∀ s ∈ names, ∀ c ∈ s.toList, 'a' ≤ c ∧ c ≤ 'z') :
    (createChampionObjects names).isSome := by
  unfold createChampionObjects
  rw [mapM_eq_some_map _ _ (fun name =>
      ⟨name, (name.toList.dedup.map
        (fun c => 1 <<< (c.toNat - 'a'.toNat))).sum⟩)
    (fun s hs => createChampion_of_lower (h s hs))]
  rfl

theorem createChampion_mask_bits {name : String}
    (h : ∀ c ∈ name.toList, 'a' ≤ c ∧ c ≤ 'z') (p : Nat) :
    ((name.toList.dedup.map
      (fun c => 1 <<< (c.toNat - 'a'.toNat))).sum).testBit p = true ↔
      p < 26 ∧ Char.ofNat (97 + p) ∈ name.toList := by
  have hmap : name.toList.dedup.map (fun c => 1 <<< (c.toNat - 'a'.toNat)) =
      (name.toList.dedup.map (fun c => c.toNat - 'a'.toNat)).map
        (fun i => 2 ^ i) := by
    rw [List.map_map]
    apply List.map_congr_left
    intro c _
    simp [Nat.one_shiftLeft]
  have hnd : (name.toList.dedup.map (fun c => c.toNat - 'a'.toNat)).Nodup := by
    apply List.Nodup.map_on
    · intro c1 hc1 c2 hc2 he
      have hb1 := h c1 (List.mem_dedup.mp hc1)
      have hb2 := h c2 (List.mem_dedup.mp hc2)
      rw [char_le_iff_toNat_le] at hb1 hb2
      have ha : ('a').toNat = 97 := by decide
      have : c1.toNat = c2.toNat := by omega
      rw [← Char.ofNat_toNat c1, ← Char.ofNat_toNat c2, this]
    · exact List.nodup_dedup _
  rw [hmap, testBit_sum_two_pow _ hnd p, List.mem_map]
  have ha : ('a').toNat = 97 := by decide
  constructor
  · rintro ⟨c, hc, rfl⟩
    obtain ⟨hb1, hb2⟩ := h c (List.mem_dedup.mp hc)
    rw [char_le_iff_toNat_le] at hb1 hb2
    have hz : ('z').toNat = 122 := by decide
    constructor
    · omega
    · have : 97 + (c.toNat - 'a'.toNat) = c.toNat := by omega
      rw [this, Char.ofNat_toNat]
      exact List.mem_dedup.mp hc
  · rintro ⟨hp, hmem⟩
    refine ⟨Char.ofNat (97 + p), List.mem_dedup.mpr hmem, ?_⟩
    rw [toNat_ofNat_of_lt (by omega)]
    omega

/-! ## Monotonicity in the team size -/

theorem sublist_extend {t l : List Champion} (h : List.Sublist t l) :
    t.length < l.length →
    ∃ t', List.Sublist t t' ∧ List.Sublist t' l ∧
      t'.length = t.length + 1 := by
  induction h with
  | slnil => intro hlen; simp at hlen
  | @cons t l1 a h ih =>
    intro hlen
    simp only [List.length_cons] at hlen
    by_cases hl : t.length < l1.length
    · obtain ⟨t', h1, h2, h3⟩ := ih hl
      exact ⟨t', h1, h2.cons a, h3⟩
    · have htl : t = l1 := h.eq_of_length (by have := h.length_le; omega)
      subst htl
      exact ⟨a :: t, (List.Sublist.refl t).cons a, List.Sublist.refl _, rfl⟩
  | @cons₂ t l1 a h ih =>
    intro hlen
    simp only [List.length_cons] at hlen
    obtain ⟨t', h1, h2, h3⟩ := ih (by omega)
    exact ⟨a :: t', h1.cons₂ a, h2.cons₂ a, by simp [h3]⟩

theorem coverage_mono {t t' : List Champion} (h : List.Sublist t t') :
    coverage t ≤ coverage t' := by
  unfold coverage
  exact bitCount_le_of_lor_eq (orMask_sublist h)

theorem maxCoverage_mono {champs : List Champion} {k : Nat}
    (hk : k + 1 ≤ champs.length) :
    maxCoverage (combos k champs) ≤ maxCoverage (combos (k + 1) champs) := by
  have hne : combos k champs ≠ [] :=
    List.ne_nil_of_mem (take_mem_combos (by omega))
  obtain ⟨t, ht, hc⟩ := maxCoverage_attained hne
  obtain ⟨hs, hl⟩ := mem_combos.mp ht
  obtain ⟨t', h1, h2, h3⟩ := sublist_extend hs (by have := hs.length_le; omega)
  have ht' : t' ∈ combos (k + 1) champs := mem_combos.mpr ⟨h2, by omega⟩
  have hcov := coverage_mono h1
  have := coverage_le_maxCoverage ht'
  omega

/-! ## Projections of the final state -/

theorem solveSearch_best (champs : List Champion) (k : Nat) :
    (solveSearch champs k).1.best_unique_char_count =
      maxCoverage (combos k champs) := by
  rw [solveSearch_spec]

theorem solveSearch_teams (champs : List Champion) (k : Nat) :
    (solveSearch champs k).1.best_teams =
      (combos k champs).filter
        (fun t => coverage t = maxCoverage (combos k champs)) := by
  rw [solveSearch_spec]

/-! ## Fuel adequacy: the search terminates -/

theorem fuel_adequate (champs : List Champion) (sfx : List Nat)
    (team_size : Nat) :
    ∀ fuel : Nat,
      (∀ idx team mask s, 2 * (champs.length - idx) + 1 ≤ fuel →
        recurseFuel fuel champs sfx team_size idx team mask s =
          some (recurse champs sfx team_size idx team mask s)) ∧
      (∀ next team mask s, 2 * (champs.length - next) ≤ fuel → 0 < fuel →
        branchFuel fuel champs sfx team_size next team mask s =
          some (branch champs sfx team_size next team mask s)) := by
  intro fuel
  induction fuel with
  | zero =>
    constructor
    · intro idx team mask s hf; omega
    · intro next team mask s hf hpos; omega
  | succ fuel ih =>
    obtain ⟨ihr, ihb⟩ := ih
    constructor
    · intro idx team mask s hf
      rw [recurse]
      simp only [recurseFuel]
      by_cases h1 : team.length = team_size
      · rw [if_pos h1, if_pos h1]
      · rw [if_neg h1, if_neg h1]
        by_cases h2 : champs.length ≤ idx ∨
            team.length + (champs.length - idx) < team_size
        · rw [if_pos h2, if_pos h2]
        · rw [if_neg h2, if_neg h2]
          by_cases h3 : bitCount (mask ||| sfx.getD idx 0) <
              s.best_unique_char_count
          · rw [if_pos h3, if_pos h3]
          · rw [if_neg h3, if_neg h3]
            have hidx : idx < champs.length := by omega
            exact ihb idx team mask s (by omega) (by omega)
    · intro next team mask s hf hpos
      rw [branch]
      simp only [branchFuel]
      by_cases h : next < champs.length
      · rw [dif_pos h, dif_pos h]
        have h1 := ihr (next + 1) (team ++ [champs[next]])
          (mask ||| champs[next].char_mask) s (by omega)
        have h2 := ihb (next + 1) team mask
          ((recurse champs sfx team_size (next + 1) (team ++ [champs[next]])
            (mask ||| champs[next].char_mask) s).1) (by omega) (by omega)
        simp only [h1, h2]
      · rw [dif_neg h, dif_neg h]

/-! ## Claim theorems -/

/-- C1: for every candidate list and team size `k` with `0 ≤ k ≤` number of
candidates, `solve` returns exactly the size-`k` teams of maximal
distinct-letter coverage: the returned list is nonempty, every returned team
is a size-`k` selection (a sublist of the ranked candidate list) whose
coverage equals `best_count`, no size-`k` selection exceeds `best_count`, and
every size-`k` selection attaining `best_count` appears in the returned
list. -/
theorem solve_returns_exactly_optimal_teams (champs : List Champion) (k : Nat)
    (hk : k ≤ champs.length) :
    (solveSearch champs k).1.best_teams ≠ [] ∧
    (∀ t ∈ (solveSearch champs k).1.best_teams,
      List.Sublist t champs ∧ t.length = k ∧
      coverage t = (solveSearch champs k).1.best_unique_char_count) ∧
    (∀ t, List.Sublist t champs → t.length = k →
      coverage t ≤ (solveSearch champs k).1.best_unique_char_count) ∧
    (∀ t, List.Sublist t champs → t.length = k →
      coverage t = (solveSearch champs k).1.best_unique_char_count →
      t ∈ (solveSearch champs k).1.best_teams) := by
  have hbest := solveSearch_best champs k
  have hteams := solveSearch_teams champs k
  refine ⟨?_, ?_, ?_, ?_⟩
  · rw [hteams]
    have hne : combos k champs ≠ [] := List.ne_nil_of_mem (take_mem_combos hk)
    obtain ⟨t, ht, hc⟩ := maxCoverage_attained hne
    intro hnil
    have hmem : t ∈ (combos k champs).filter
        (fun t => coverage t = maxCoverage (combos k champs)) :=
      List.mem_filter.mpr ⟨ht, by simp [hc]⟩
    rw [hnil] at hmem
    simp at hmem
  · intro t ht
    rw [hteams] at ht
    obtain ⟨hmem, hcov⟩ := List.mem_filter.mp ht
    obtain ⟨hs, hl⟩ := mem_combos.mp hmem
    refine ⟨hs, hl, ?_⟩
    rw [hbest]
    simpa using hcov
  · intro t hs hl
    rw [hbest]
    exact coverage_le_maxCoverage (mem_combos.mpr ⟨hs, hl⟩)
  · intro t hs hl hc
    rw [hteams]
    refine List.mem_filter.mpr ⟨mem_combos.mpr ⟨hs, hl⟩, ?_⟩
    rw [hbest] at hc
    simp [hc]

/-- Witness for C1 at the spec's concrete scenario (candidates "ab", "cd",
"ac" and team size 2). -/
theorem solve_returns_exactly_optimal_teams_witness :
    2 ≤ ([champAB, champCD, champAC] : List Champion).length ∧
    ((solveSearch [champAB, champCD, champAC] 2).1.best_teams ≠ [] ∧
     (∀ t ∈ (solveSearch [champAB, champCD, champAC] 2).1.best_teams,
       List.Sublist t [champAB, champCD, champAC] ∧ t.length = 2 ∧
       coverage t =
         (solveSearch [champAB, champCD, champAC] 2).1.best_unique_char_count) ∧
     (∀ t, List.Sublist t [champAB, champCD, champAC] → t.length = 2 →
       coverage t ≤
         (solveSearch [champAB, champCD, champAC] 2).1.best_unique_char_count) ∧
     (∀ t, List.Sublist t [champAB, champCD, champAC] → t.length = 2 →
       coverage t =
         (solveSearch [champAB, champCD, champAC] 2).1.best_unique_char_count →
       t ∈ (solveSearch [champAB, champCD, champAC] 2).1.best_teams)) :=
  ⟨by decide,
   solve_returns_exactly_optimal_teams [champAB, champCD, champAC] 2 (by decide)⟩

/-- C3: team size 0 yields exactly one team, the empty team, with best count
0; a team size exceeding the candidate count yields an empty result list (no
error is raised: the total function simply returns the initial state). -/
theorem solve_boundary (champs : List Champion) (k : Nat) :
    ((solveSearch champs 0).1.best_unique_char_count = 0 ∧
     (solveSearch champs 0).1.best_teams = [[]]) ∧
    (champs.length < k → (solveSearch champs k).1.best_teams = []) := by
  constructor
  · have h0 : combos 0 champs = [[]] := by cases champs <;> rfl
    have hcov : coverage ([] : List Champion) = 0 := by
      unfold coverage
      rw [orMask_nil, bitCount_eq]
      simp
    have hmax : maxCoverage (combos 0 champs) = 0 := by
      rw [h0]
      show max 0 (coverage []) = 0
      rw [hcov]
      simp
    constructor
    · rw [solveSearch_best, hmax]
    · rw [solveSearch_teams, hmax, h0]
      simp [hcov]
  · intro hk
    rw [solveSearch_teams, combos_eq_nil hk]
    rfl

/-- Witness for C3 with one candidate and team size 2. -/
theorem solve_boundary_witness :
    (((solveSearch [champA] 0).1.best_unique_char_count = 0 ∧
      (solveSearch [champA] 0).1.best_teams = [[]]) ∧
     (([champA] : List Champion).length < 2 ∧
      (solveSearch [champA] 2).1.best_teams = [])) :=
  ⟨(solve_boundary [champA] 2).1,
   by decide, (solve_boundary [champA] 2).2 (by decide)⟩

/-- C4 as stated is false on the code: with candidates
`[champCD, champAB, champA]` and team size 2, the size-2 sublist
`[champAB, champA]` never reaches the completion check — after the best
count reaches 4, the bound prune cuts the whole branch rooted at
`champAB`. -/
theorem subset_skipped_by_bound_prune :
    List.Sublist [champAB, champA] [champCD, champAB, champA] ∧
    ([champAB, champA] : List Champion).length = 2 ∧
    [champAB, champA] ∉ (solveSearch [champCD, champAB, champA] 2).2 := by
  refine ⟨(List.Sublist.refl _).cons _, rfl, ?_⟩
  have hv : (solveSearch [champCD, champAB, champA] 2).2 =
      [[champCD, champAB], [champCD, champA]] := by
    simp [solveSearch, recurse, branch, computeSuffixCharMasks, update,
      champCD, champAB, champA, bitCount_eq, orMask]
  rw [hv]
  decide

/-- C4 amended: during one call to `solve`, each size-`team_size` subset of
the candidate list reaches the completion check at most once; the teams
reaching the completion check form a sublist of the duplicate-free
combination enumeration (the bound prune may skip some subsets entirely,
which the counterexample exhibits). -/
theorem subsets_visited_at_most_once (champs : List Champion) (k : Nat) :
    List.Sublist (solveSearch champs k).2 (combos k champs) ∧
    (champs.Nodup → (solveSearch champs k).2.Nodup) := by
  refine ⟨(solveSearch_eq champs k).2, fun hnd => ?_⟩
  exact (combos_nodup hnd k).sublist (solveSearch_eq champs k).2

/-- Witness for the amended C4 at a concrete input. -/
theorem subsets_visited_at_most_once_witness :
    List.Sublist (solveSearch [champCD, champAB, champA] 2).2
      (combos 2 [champCD, champAB, champA]) ∧
    ([champCD, champAB, champA] : List Champion).Nodup ∧
    (solveSearch [champCD, champAB, champA] 2).2.Nodup :=
  ⟨(subsets_visited_at_most_once [champCD, champAB, champA] 2).1, by decide,
   (subsets_visited_at_most_once [champCD, champAB, champA] 2).2 (by decide)⟩

/-- C5: the suffix mask table has the same length as the candidate list,
entry `i` is the OR of `char_mask` over all candidates at positions `≥ i`,
and the entry at position `i+1` is a submask of (or equal to) the entry at
position `i`. -/
theorem suffix_mask_table_spec (champs : List Champion) :
    (computeSuffixCharMasks champs).length = champs.length ∧
    (∀ i, i < champs.length →
      (computeSuffixCharMasks champs).getD i 0 = orMask (champs.drop i)) ∧
    (∀ i, i + 1 < champs.length →
      (computeSuffixCharMasks champs).getD (i + 1) 0 |||
        (computeSuffixCharMasks champs).getD i 0 =
      (computeSuffixCharMasks champs).getD i 0) := by
  refine ⟨length_computeSuffixCharMasks champs,
    fun i hi => computeSuffixCharMasks_getD champs i hi, fun i hi => ?_⟩
  rw [computeSuffixCharMasks_getD champs (i + 1) hi,
    computeSuffixCharMasks_getD champs i (by omega)]
  apply orMask_sublist
  have hd : (champs.drop i).drop 1 = champs.drop (i + 1) := by
    rw [List.drop_drop, Nat.add_comm]
  rw [← hd]
  exact List.drop_sublist 1 _

/-- Witness for C5 at a concrete two-candidate list. -/
theorem suffix_mask_table_spec_witness :
    (computeSuffixCharMasks [champAB, champA]).length =
      ([champAB, champA] : List Champion).length ∧
    (0 < ([champAB, champA] : List Champion).length ∧
     (computeSuffixCharMasks [champAB, champA]).getD 0 0 =
       orMask (([champAB, champA] : List Champion).drop 0)) ∧
    (0 + 1 < ([champAB, champA] : List Champion).length ∧
     (computeSuffixCharMasks [champAB, champA]).getD (0 + 1) 0 |||
       (computeSuffixCharMasks [champAB, champA]).getD 0 0 =
     (computeSuffixCharMasks [champAB, champA]).getD 0 0) :=
  ⟨(suffix_mask_table_spec [champAB, champA]).1,
   ⟨by decide, (suffix_mask_table_spec [champAB, champA]).2.1 0 (by decide)⟩,
   ⟨by decide, (suffix_mask_table_spec [champAB, champA]).2.2 0 (by decide)⟩⟩

/-- C6: for a fixed candidate list, increasing the team size by one never
decreases the best coverage count, as long as `k+1` teams are feasible. -/
theorem best_count_monotone_in_team_size (champs : List Champion) (k : Nat)
    (hk : k + 1 ≤ champs.length) :
    (solveSearch champs k).1.best_unique_char_count ≤
      (solveSearch champs (k + 1)).1.best_unique_char_count := by
  rw [solveSearch_best, solveSearch_best]
  exact maxCoverage_mono hk

/-- Witness for C6 at a concrete two-candidate list. -/
theorem best_count_monotone_in_team_size_witness :
    1 + 1 ≤ ([champAB, champA] : List Champion).length ∧
    (solveSearch [champAB, champA] 1).1.best_unique_char_count ≤
      (solveSearch [champAB, champA] (1 + 1)).1.best_unique_char_count :=
  ⟨by decide, best_count_monotone_in_team_size [champAB, champA] 1 (by decide)⟩

/-- C7: the search always terminates and returns a well-defined result: the
remaining candidate range shrinks at every recursive call, so the
fuel-indexed search returns (instead of running out of fuel) whenever the
fuel at least matches the well-founded measure `2·(candidate count)+1`, and
its value is the well-defined total result of `solve`. -/
theorem search_terminates (champs : List Champion) (team_size fuel : Nat)
    (hfuel : 2 * champs.length + 1 ≤ fuel) :
    recurseFuel fuel champs (computeSuffixCharMasks champs) team_size 0 [] 0
      ⟨0, []⟩ = some (solveSearch champs team_size) :=
  (fuel_adequate champs (computeSuffixCharMasks champs) team_size fuel).1
    0 [] 0 ⟨0, []⟩ (by omega)

/-- Witness for C7 with one candidate and fuel 3. -/
theorem search_terminates_witness :
    2 * ([champA] : List Champion).length + 1 ≤ 3 ∧
    recurseFuel 3 [champA] (computeSuffixCharMasks [champA]) 1 0 [] 0
      ⟨0, []⟩ = some (solveSearch [champA] 1) :=
  ⟨by decide, search_terminates [champA] 1 3 (by decide)⟩

/-- C8: running the program twice on identical input (the same candidate
name list and team size) yields identical results — the same best count and
the same teams in the same order: the whole pipeline, ranking included, is a
pure function of its input. -/
theorem run_deterministic (names₁ names₂ : List String) (k₁ k₂ : Nat)
    (h1 : names₁ = names₂) (h2 : k₁ = k₂) :
    runFinder names₁ k₁ = runFinder names₂ k₂ := by
  rw [h1, h2]

/-- Witness for C8 at a concrete input. -/
theorem run_deterministic_witness :
    (["ab", "cd"] : List String) = ["ab", "cd"] ∧ (1 : Nat) = 1 ∧
    runFinder ["ab", "cd"] 1 = runFinder ["ab", "cd"] 1 :=
  ⟨rfl, rfl, run_deterministic ["ab", "cd"] ["ab", "cd"] 1 1 rfl rfl⟩

/-- C10: every returned team selects candidates at strictly increasing
positions of the candidate list — it is a sublist — so no list element is
used twice: each candidate occurs in a team at most as often as it occurs in
the candidate list, even when two candidates share the same name. -/
theorem team_members_strictly_increasing (champs : List Champion) (k : Nat) :
    ∀ t ∈ (solveSearch champs k).1.best_teams,
      List.Sublist t champs ∧ ∀ c, t.count c ≤ champs.count c := by
  intro t ht
  rw [solveSearch_teams] at ht
  obtain ⟨hmem, _⟩ := List.mem_filter.mp ht
  obtain ⟨hs, _⟩ := mem_combos.mp hmem
  exact ⟨hs, fun c => hs.count_le c⟩

/-- Witness for C10 at a list with a duplicated candidate. -/
theorem team_members_strictly_increasing_witness :
    [champA, champA] ∈ (solveSearch [champA, champA] 2).1.best_teams ∧
    (List.Sublist [champA, champA] [champA, champA] ∧
      ∀ c, ([champA, champA] : List Champion).count c ≤
        ([champA, champA] : List Champion).count c) := by
  have hmem : [champA, champA] ∈ (solveSearch [champA, champA] 2).1.best_teams := by
    have hs : (solveSearch [champA, champA] 2).1 = ⟨1, [[champA, champA]]⟩ := by
      simp [solveSearch, recurse, branch, computeSuffixCharMasks, update,
        champA, bitCount_eq, orMask]
    rw [hs]
    decide
  exact ⟨hmem, team_members_strictly_increasing [champA, champA] 2
    [champA, champA] hmem⟩

/-- C2 as stated is false on the code: Python's `str.isalpha` accepts
non-ASCII letters, so the name "é" survives normalization unchanged, and the
`CHAR_TO_BIT` lookup then fails (a `KeyError` in Python, `none` here). -/
theorem normalization_keeps_non_ascii_letter :
    normalizeNames ["é"] = ["é"] ∧
    createChampionObjects (normalizeNames ["é"]) = none := by
  constructor
  · decide
  · decide

/-- C2 amended: for raw input names consisting of ASCII characters (any
case, digits, punctuation, whitespace included), normalization produces
strings of lowercase a-z letters only, and building every champion's
char_mask succeeds.  (Over arbitrary input the claim fails: see the
counterexample with the non-ASCII letter é.) -/
theorem normalization_safe_on_ascii (names : List String)
    (h : ∀ s ∈ names, ∀ c ∈ s.toList, c.toNat < 128) :
    (∀ s ∈ normalizeNames names, ∀ c ∈ s.toList, 'a' ≤ c ∧ c ≤ 'z') ∧
    (createChampionObjects (normalizeNames names)).isSome := by
  have hnorm : ∀ s ∈ normalizeNames names, ∀ c ∈ s.toList,
      'a' ≤ c ∧ c ≤ 'z' := by
    intro s hs
    obtain ⟨s0, hs0, rfl⟩ := List.mem_map.mp hs
    exact normalizeName_ascii (h s0 hs0)
  exact ⟨hnorm, createChampionObjects_isSome hnorm⟩

/-- Witness for the amended C2 on names with uppercase, punctuation, digits
and whitespace. -/
theorem normalization_safe_on_ascii_witness :
    (∀ s ∈ (["Hello, World!", "ab12cd"] : List String), ∀ c ∈ s.toList,
      c.toNat < 128) ∧
    ((∀ s ∈ normalizeNames ["Hello, World!", "ab12cd"], ∀ c ∈ s.toList,
       'a' ≤ c ∧ c ≤ 'z') ∧
     (createChampionObjects
       (normalizeNames ["Hello, World!", "ab12cd"])).isSome) :=
  ⟨by decide, normalization_safe_on_ascii ["Hello, World!", "ab12cd"] (by decide)⟩

/-- C9: for an entity built from a normalized name of lowercase a-z letters,
creation succeeds and bit `p` of its `char_mask` is set exactly when the
letter at alphabet position `p` (codepoint `97 + p`) occurs in the name; in
particular the empty name yields `char_mask = 0`, and the resulting value is
an ordinary `Champion` that the search treats like any other. -/
theorem char_mask_bits_exactly_letters (name : String)
    (h : ∀ c ∈ name.toList, 'a' ≤ c ∧ c ≤ 'z') :
    ∃ champ, createChampion name = some champ ∧ champ.name = name ∧
      (∀ p, champ.char_mask.testBit p = true ↔
        p < 26 ∧ Char.ofNat (97 + p) ∈ name.toList) ∧
      (name.toList = [] → champ.char_mask = 0) := by
  refine ⟨_, createChampion_of_lower h, rfl, ?_, ?_⟩
  · exact fun p => createChampion_mask_bits h p
  · intro hnil
    show (name.toList.dedup.map _).sum = 0
    rw [hnil]
    rfl

/-- Witness for C9 at the name "ba". -/
theorem char_mask_bits_exactly_letters_witness :
    (∀ c ∈ ("ba" : String).toList, 'a' ≤ c ∧ c ≤ 'z') ∧
    (∃ champ, createChampion "ba" = some champ ∧ champ.name = "ba" ∧
      (∀ p, champ.char_mask.testBit p = true ↔
        p < 26 ∧ Char.ofNat (97 + p) ∈ ("ba" : String).toList) ∧
      (("ba" : String).toList = [] → champ.char_mask = 0)) :=
  ⟨by decide, char_mask_bits_exactly_letters "ba" (by decide)⟩
